import Mathlib

/-!
Shallow embedding of the event-driven backtesting engine
(event_system.py, engine_components.py, statistics.py, backtest.py,
strategies/buy_and_hold_strategy.py) together with theorems settling
the specification claims.

Conventions of the embedding:
* monetary amounts, prices and quantities are exact rationals;
* timestamps are natural numbers;
* a Python dict from symbols to share counts is a function
  String to Option Rat, where none encodes absence of the key;
* the global event queue is made explicit: handlers return the list of
  events they put on the queue, and the driver loop threads the queue as
  a list processed first-in first-out;
* the random draw of random.random() is threaded as an explicit stream
  of rationals.
-/

/-- Trade or order direction, BUY or SELL, as the direction strings of the code. -/
inductive Direction where
  | BUY
  | SELL
deriving DecidableEq, Repr

/-- Signal types LONG, SHORT and EXIT recognised by the system. -/
inductive SignalType where
  | LONG
  | SHORT
  | EXIT
deriving DecidableEq, Repr

/-- SignalEvent of event_system.py: symbol, timestamp, signal type and strength. -/
structure SignalEvent where
  symbol : String
  timestamp : Nat
  signalType : SignalType
  strength : ℚ
deriving DecidableEq, Repr

/-- OrderEvent of event_system.py: symbol, order type, quantity and direction. -/
structure OrderEvent where
  symbol : String
  orderType : String
  quantity : ℚ
  direction : Direction
deriving DecidableEq, Repr

/-- FillEvent of event_system.py: executed trade with price and commission. -/
structure FillEvent where
  timestamp : Nat
  symbol : String
  direction : Direction
  quantity : ℚ
  fill_price : ℚ
  commission : ℚ
deriving DecidableEq, Repr

/-- Event sum type: the four event kinds that travel on the queue. -/
inductive Event where
  | market
  | signal (s : SignalEvent)
  | order (o : OrderEvent)
  | fill (f : FillEvent)
deriving DecidableEq, Repr

/-- One OHLC bar of the data feed: its index timestamp and closing price. -/
structure Bar where
  timestamp : Nat
  close : ℚ
deriving DecidableEq, Repr

/-- Portfolio state of engine_components.py: initial capital, cash and the
positions dict mapping a symbol to its held quantity (none = key absent). -/
structure Portfolio where
  initial_capital : ℚ
  cash : ℚ
  positions : String → Option ℚ

/-- Portfolio.__init__: cash set to the initial capital, empty positions dict. -/
def Portfolio.init (initial_capital : ℚ) : Portfolio :=
  { initial_capital := initial_capital
    cash := initial_capital
    positions := fun _ => none }

/-- Portfolio.on_signal (engine_components.py lines 46-65): a LONG signal with
no open position emits one MKT BUY order of the fixed lot size 10; an EXIT
signal with an open position emits one MKT SELL order of the full held
quantity; every other case emits nothing. The portfolio state is unchanged;
the returned list is what the handler puts on the event queue. -/
def Portfolio.on_signal (p : Portfolio) (s : SignalEvent) : List OrderEvent :=
  if s.signalType = .LONG ∧ (p.positions s.symbol).isNone then
    [{ symbol := s.symbol, orderType := "MKT", quantity := 10, direction := .BUY }]
  else if s.signalType = .EXIT ∧ (p.positions s.symbol).isSome then
    [{ symbol := s.symbol, orderType := "MKT",
       quantity := (p.positions s.symbol).getD 0, direction := .SELL }]
  else []

/-- Portfolio.on_fill (engine_components.py lines 67-74): on BUY, cash
decreases by fill_price * quantity + commission and the position of the
symbol grows by the filled quantity (dict get with default 0); on SELL, cash
increases by fill_price * quantity - commission and the position entry is
popped from the dict. -/
def Portfolio.on_fill (p : Portfolio) (f : FillEvent) : Portfolio :=
  match f.direction with
  | .BUY =>
    { p with
      cash := p.cash - (f.fill_price * f.quantity + f.commission)
      positions := fun s =>
        if s = f.symbol then some ((p.positions f.symbol).getD 0 + f.quantity)
        else p.positions s }
  | .SELL =>
    { p with
      cash := p.cash + (f.fill_price * f.quantity - f.commission)
      positions := fun s => if s = f.symbol then none else p.positions s }

/-- ExecutionHandler.execute_order (engine_components.py lines 145-178): the
slippage is close * slippage_pct * u for a BUY and its negation for a SELL,
where u is the draw of random.random(); the fill price is close plus
slippage, the commission is fill_price * quantity * commission_rate, the
quantity is the order quantity, and the timestamp is the one of the
triggering bar. -/
def execute_order (commission_rate slippage_pct : ℚ) (o : OrderEvent)
    (bar : Bar) (u : ℚ) : FillEvent :=
  let slippage : ℚ :=
    match o.direction with
    | .BUY => bar.close * slippage_pct * u
    | .SELL => -(bar.close * slippage_pct * u)
  let fill_price := bar.close + slippage
  let commission := fill_price * o.quantity * commission_rate
  { timestamp := bar.timestamp
    symbol := o.symbol
    direction := o.direction
    quantity := o.quantity
    fill_price := fill_price
    commission := commission }

/-- BuyAndHoldStrategy.calculate_signals: when the bought flag is not yet
set, emit one LONG signal carrying the event timestamp and set the flag;
afterwards do nothing. Returns the new flag and the emitted signals. -/
def calculate_signals (symbol : String) (bought : Bool) (t : Nat) :
    Bool × List SignalEvent :=
  if !bought then
    (true, [{ symbol := symbol, timestamp := t, signalType := .LONG, strength := 1 }])
  else
    (bought, [])

/-- Driver that calls calculate_signals once per bar timestamp, threading the
bought flag; collects every emitted signal in order. -/
def runStrategy (symbol : String) : Bool → List Nat → Bool × List SignalEvent
  | b, [] => (b, [])
  | b, t :: ts =>
    let step := calculate_signals symbol b t
    let rest := runStrategy symbol step.1 ts
    (rest.1, step.2 ++ rest.2)

/-!
Statistics (statistics.py). Trade rows come from the pipe-separated trade
log written by LoggingHandler.on_fill, one row per fill.
-/

/-- One row of the trade ledger read back by Statistics: execution timestamp,
action, quantity, price and commission. -/
structure Trade where
  timestamp : Nat
  action : Direction
  quantity : ℚ
  price : ℚ
  commission : ℚ
deriving DecidableEq, Repr

/-- Cash column of Statistics._calculate_equity_curve (statistics.py lines
25-44) evaluated at one row timestamp t. The source iterates the ledger,
computes trade_cost = Price * Quantity + Commission once per trade, and for
every row whose index is at or after the floored trade timestamp subtracts
trade_cost on BUY and adds the same trade_cost on SELL. floorD embeds the
pandas floor to day granularity applied to the trade timestamp. -/
def equityCurveCash (initial_capital : ℚ) (floorD : Nat → Nat)
    (trades : List Trade) (t : Nat) : ℚ :=
  trades.foldl
    (fun cash tr =>
      if floorD tr.timestamp ≤ t then
        let trade_cost := tr.price * tr.quantity + tr.commission
        match tr.action with
        | .BUY => cash - trade_cost
        | .SELL => cash + trade_cost
      else cash)
    initial_capital

/-- Gross profit over closed trades as generate_report computes it
(statistics.py line 50): initialised to zero and never updated from the
ledger, hence constantly zero. -/
def grossProfit (_trades : List Trade) : ℚ := 0

/-- Gross loss over closed trades as generate_report computes it
(statistics.py line 50): initialised to zero and never updated. -/
def grossLoss (_trades : List Trade) : ℚ := 0

/-- Count of winning closed trades as generate_report computes it
(statistics.py line 50): initialised to zero and never updated. -/
def winningTrades (_trades : List Trade) : Nat := 0

/-- Count of losing closed trades as generate_report computes it
(statistics.py line 50): initialised to zero and never updated. -/
def losingTrades (_trades : List Trade) : Nat := 0

/-- Profit factor of generate_report (statistics.py line 51): none encodes
the float value inf taken when gross_loss is zero, otherwise the absolute
quotient of gross profit by gross loss. -/
def profitFactor (trades : List Trade) : Option ℚ :=
  if grossLoss trades = 0 then none
  else some |grossProfit trades / grossLoss trades|

/-- Percent profitable of generate_report (statistics.py lines 52-53):
winning over total closed trades times 100 when there are closed trades,
else 0. -/
def pctProfitable (trades : List Trade) : ℚ :=
  let total := winningTrades trades + losingTrades trades
  if 0 < total then ((winningTrades trades : ℚ) / (total : ℚ)) * 100 else 0

/-- Arithmetic mean of a list of rationals, as pandas Series.mean. -/
def meanQ (xs : List ℚ) : ℚ := xs.sum / (xs.length : ℚ)

/-- Sample variance with one delta degree of freedom, the square of pandas
Series.std: none encodes the NaN that pandas returns on a series of fewer
than two points. -/
def svar? (xs : List ℚ) : Option ℚ :=
  if xs.length ≤ 1 then none
  else some ((xs.map (fun x => (x - meanQ xs) ^ 2)).sum / ((xs.length : ℚ) - 1))

/-- Boolean outcome of the Python comparison std == 0: false when the std is
NaN (series of fewer than two points), else the test that the variance is
zero, which over exact arithmetic is equivalent to the std being zero. -/
def stdEqZero (xs : List ℚ) : Bool :=
  match svar? xs with
  | none => false
  | some v => v = 0

/-- Excess returns used by calculate_sharpe_ratio: each return less the
per-period risk-free rate risk_free_rate / 252. -/
def excessReturns (returns : List ℚ) (risk_free_rate : ℚ) : List ℚ :=
  returns.map (fun r => r - risk_free_rate / 252)

/-- Downside returns used by calculate_sortino_ratio: the subseries of
strictly negative returns. -/
def downsideReturns (returns : List ℚ) : List ℚ :=
  returns.filter (fun r => r < 0)

/-- Symbolic value of a ratio computation: zero for the early return 0.0,
nan for a float NaN outcome, and formula m v for the real number
sqrt 252 * m / sqrt v. -/
inductive RatioResult where
  | zero
  | nan
  | formula (m : ℚ) (v : ℚ)
deriving DecidableEq, Repr

/-- Statistics.calculate_sharpe_ratio (statistics.py lines 75-78): return 0
when the returns series is empty or its std compares equal to 0; otherwise
the value sqrt 252 * mean(excess) / std(excess), which is NaN when the
excess std is NaN (series of one point slips past the guard because
NaN == 0 is false in Python). -/
def calculate_sharpe_ratio (returns : List ℚ) (risk_free_rate : ℚ) : RatioResult :=
  if returns.isEmpty || stdEqZero returns then .zero
  else
    let ex := excessReturns returns risk_free_rate
    match svar? ex with
    | none => .nan
    | some v => .formula (meanQ ex) v

/-- Statistics.calculate_sortino_ratio (statistics.py lines 80-86): return 0
when the returns series is empty, or when the downside subseries is empty or
its std compares equal to 0; otherwise sqrt 252 * (mean(returns) -
risk_free_rate / 252) / std(downside), NaN when the downside std is NaN. -/
def calculate_sortino_ratio (returns : List ℚ) (risk_free_rate : ℚ) : RatioResult :=
  if returns.isEmpty then .zero
  else
    let ds := downsideReturns returns
    if ds.isEmpty || stdEqZero ds then .zero
    else
      match svar? ds with
      | none => .nan
      | some v => .formula (meanQ returns - risk_free_rate / 252) v

/-- Running maximum helper: cummaxFrom m xs is the running maximum of xs
seeded by m. -/
def cummaxFrom (m : ℚ) : List ℚ → List ℚ
  | [] => []
  | x :: xs => max m x :: cummaxFrom (max m x) xs

/-- Pandas Series.cummax on the total-equity column. -/
def cummax : List ℚ → List ℚ
  | [] => []
  | x :: xs => x :: cummaxFrom x xs

/-- Drawdown series of calculate_max_drawdown: total equity minus its
running maximum, pointwise. -/
def drawdown (equity : List ℚ) : List ℚ :=
  List.zipWith (fun e m => e - m) equity (cummax equity)

/-- Pandas Series.min over a nonempty list via a left fold; 0 on the empty
list (unused there: the claim restricts to nonempty equity series). -/
def seriesMin : List ℚ → ℚ
  | [] => 0
  | x :: xs => xs.foldl min x

/-- Pandas Series.idxmin: position of the first occurrence of the minimum. -/
def idxmin (xs : List ℚ) : Nat :=
  xs.findIdx (fun x => x = seriesMin xs)

/-- Statistics.calculate_max_drawdown (statistics.py lines 68-73): the
minimum of the drawdown series, paired with that minimum divided by the
running maximum at the first minimising position, or 0 when that running
maximum is zero. -/
def calculate_max_drawdown (equity : List ℚ) : ℚ × ℚ :=
  let dd := drawdown equity
  let max_drawdown_val := seriesMin dd
  let i := idxmin dd
  let roll_max_at := (cummax equity).getD i 0
  (max_drawdown_val,
   if roll_max_at = 0 then 0 else max_drawdown_val / roll_max_at)

/-!
Driver loop of backtest.py main(): stream one bar, put a MarketEvent on the
queue, then process the queue first-in first-out until it is empty,
handlers appending the events they generate to the back of the queue; then
stream the next bar, until the feed ends.
-/

/-- Run configuration of backtest.py main(): traded symbol, commission rate
and slippage percentage. -/
structure Config where
  symbol : String
  commission_rate : ℚ
  slippage_pct : ℚ

/-- Mutable component state threaded through the loop: the strategy bought
flag, the portfolio, and the index of the next random draw. -/
structure Engine where
  bought : Bool
  port : Portfolio
  rng : Nat

/-- Dispatch of one event by the loop body of backtest.py (lines 42-52):
MARKET runs the strategy, SIGNAL runs Portfolio.on_signal, ORDER runs
ExecutionHandler.execute_order with the current bar and the next random
draw, FILL runs Portfolio.on_fill. Returns the new state and the events the
handler put on the queue. -/
def stepEvent (cfg : Config) (us : Nat → ℚ) (bar : Bar) (eng : Engine) :
    Event → Engine × List Event
  | .market =>
    let r := calculate_signals cfg.symbol eng.bought bar.timestamp
    ({ eng with bought := r.1 }, r.2.map Event.signal)
  | .signal s => (eng, (eng.port.on_signal s).map Event.order)
  | .order o =>
    let f := execute_order cfg.commission_rate cfg.slippage_pct o bar (us eng.rng)
    ({ eng with rng := eng.rng + 1 }, [Event.fill f])
  | .fill f => ({ eng with port := eng.port.on_fill f }, [])

/-- Termination weight of an event: processing an event only pushes events
of strictly smaller total weight. -/
def eventWeight : Event → Nat
  | .market => 8
  | .signal _ => 4
  | .order _ => 2
  | .fill _ => 1

/-- Fill events among a list of queue events. -/
def fillsOf (events : List Event) : List FillEvent :=
  events.filterMap (fun e => match e with | .fill f => some f | _ => none)

/-- Inner while loop of backtest.py (lines 36-52) with explicit fuel: pop
the front event, handle it with the current bar, append the generated
events to the back of the queue, and repeat until the queue is empty.
Returns the final state and every fill generated during the cascade, or
none when the fuel runs out before the queue drains. -/
def drainQueue (cfg : Config) (us : Nat → ℚ) (bar : Bar) :
    Nat → Engine → List Event → Option (Engine × List FillEvent)
  | fuel, eng, q =>
    match q with
    | [] => some (eng, [])
    | e :: rest =>
      match fuel with
      | 0 => none
      | fuel' + 1 =>
        let r := stepEvent cfg us bar eng e
        match drainQueue cfg us bar fuel' r.1 (rest ++ r.2) with
        | none => none
        | some (engF, fs) => some (engF, fillsOf r.2 ++ fs)

/-- Outer while loop of backtest.py (lines 32-52): for each bar of the feed,
put a MarketEvent on the queue and drain the queue completely before
pulling the next bar. Each produced fill is recorded with the bar whose
cascade generated it. When the feed is exhausted the loop halts with the
queue empty (the drain of the last bar already emptied it). -/
def runBacktest (cfg : Config) (us : Nat → ℚ) :
    List Bar → Engine → Option (Engine × List (Bar × FillEvent))
  | [], eng => some (eng, [])
  | b :: rest, eng =>
    match drainQueue cfg us b (eventWeight .market) eng [Event.market] with
    | none => none
    | some (engB, fs) =>
      match runBacktest cfg us rest engB with
      | none => none
      | some (engF, fsF) => some (engF, fs.map (fun f => (b, f)) ++ fsF)

/-- A fill is priced from the given bar: it carries the bar timestamp and
its fill price is the bar close adjusted by a slippage term built from the
bar close, the configured slippage percentage and one draw of the random
stream, added on BUY and subtracted on SELL. -/
def pricedFromBar (cfg : Config) (us : Nat → ℚ) (bar : Bar) (f : FillEvent) : Prop :=
  f.timestamp = bar.timestamp ∧
    ∃ k, f.fill_price = bar.close + bar.close * cfg.slippage_pct * us k ∨
      f.fill_price = bar.close - bar.close * cfg.slippage_pct * us k

/-!
Action sequences on the portfolio, for the reachability invariant: the
portfolio is mutated only by on_fill; on_signal reads the positions dict
and emits orders but never writes cash or positions, so applying a signal
leaves the state unchanged.
-/

/-- One portfolio-facing call of the driver loop: a signal handed to
Portfolio.on_signal or a fill handed to Portfolio.on_fill. -/
inductive PAction where
  | sig (s : SignalEvent)
  | fil (f : FillEvent)

/-- Apply a sequence of portfolio calls in order. on_signal leaves the
portfolio state unchanged (it only emits orders), on_fill updates it. -/
def applyActions (p : Portfolio) : List PAction → Portfolio
  | [] => p
  | .sig _ :: rest => applyActions p rest
  | .fil f :: rest => applyActions (p.on_fill f) rest

/-- Fill events of an action sequence. -/
def actionFills (acts : List PAction) : List FillEvent :=
  acts.filterMap (fun a => match a with | .fil f => some f | .sig _ => none)

/-!
Theorems settling the claims, with concrete fixtures for witnesses.
-/

/-- Fixture fill event used by witnesses. -/
def exFillBuy : FillEvent :=
  { timestamp := 0, symbol := "RELIANCE.NS", direction := .BUY,
    quantity := 10, fill_price := 50, commission := 1 }

/-- Fixture sell fill used by witnesses. -/
def exFillSell : FillEvent :=
  { timestamp := 1, symbol := "RELIANCE.NS", direction := .SELL,
    quantity := 10, fill_price := 60, commission := 1 }

/-- Fixture LONG signal used by witnesses. -/
def exSignalLong : SignalEvent :=
  { symbol := "RELIANCE.NS", timestamp := 0, signalType := .LONG, strength := 1 }

/-- C3. Portfolio.on_fill moves cash by exactly the signed cost of the
fill: on BUY, cash drops by fill_price * quantity + commission and the
position of the fill symbol grows by the fill quantity; on SELL, cash grows
by fill_price * quantity - commission and the position entry of the symbol
is removed; positions of other symbols are untouched in both cases. -/
theorem on_fill_cash_conservation (p : Portfolio) (f : FillEvent) :
    (f.direction = .BUY →
      (p.on_fill f).cash = p.cash - (f.fill_price * f.quantity + f.commission) ∧
      (p.on_fill f).positions f.symbol
        = some ((p.positions f.symbol).getD 0 + f.quantity) ∧
      ∀ s, s ≠ f.symbol → (p.on_fill f).positions s = p.positions s) ∧
    (f.direction = .SELL →
      (p.on_fill f).cash = p.cash + (f.fill_price * f.quantity - f.commission) ∧
      (p.on_fill f).positions f.symbol = none ∧
      ∀ s, s ≠ f.symbol → (p.on_fill f).positions s = p.positions s) := by
  constructor <;> intro hd <;>
    refine ⟨by simp [Portfolio.on_fill, hd], by simp [Portfolio.on_fill, hd],
      fun s hs => by simp [Portfolio.on_fill, hd, hs]⟩

/-- Witness for C3: the BUY branch evaluated on a concrete portfolio and
fill. -/
theorem on_fill_cash_conservation_witness :
    ((Portfolio.init 100000).on_fill exFillBuy).cash = 100000 - (50 * 10 + 1) :=
  (((on_fill_cash_conservation (Portfolio.init 100000) exFillBuy).1 rfl).1).trans
    (by norm_num [Portfolio.init, exFillBuy])

/-- C4. Portfolio.on_signal order policy: LONG with no open position emits
exactly one MKT BUY order of the fixed lot size 10; EXIT with an open
position emits exactly one MKT SELL order of the full held quantity; LONG
with an open position, EXIT while flat, and SHORT emit nothing. -/
theorem on_signal_order_policy (p : Portfolio) (s : SignalEvent) :
    (s.signalType = .LONG → p.positions s.symbol = none →
      p.on_signal s =
        [{ symbol := s.symbol, orderType := "MKT", quantity := 10, direction := .BUY }]) ∧
    (s.signalType = .EXIT → ∀ q, p.positions s.symbol = some q →
      p.on_signal s =
        [{ symbol := s.symbol, orderType := "MKT", quantity := q, direction := .SELL }]) ∧
    (s.signalType = .LONG → p.positions s.symbol ≠ none → p.on_signal s = []) ∧
    (s.signalType = .EXIT → p.positions s.symbol = none → p.on_signal s = []) ∧
    (s.signalType = .SHORT → p.on_signal s = []) := by
  refine ⟨fun ht hp => ?_, fun ht q hp => ?_, fun ht hp => ?_, fun ht hp => ?_,
    fun ht => ?_⟩
  · simp [Portfolio.on_signal, ht, hp, Option.isNone_iff_eq_none]
  · simp [Portfolio.on_signal, ht, hp]
  · simp [Portfolio.on_signal, ht, Option.isNone_iff_eq_none, hp]
  · simp [Portfolio.on_signal, ht, hp]
  · simp [Portfolio.on_signal, ht]

/-- Witness for C4: a LONG signal on a fresh portfolio emits the single
fixed-lot BUY order. -/
theorem on_signal_order_policy_witness :
    (Portfolio.init 100000).on_signal exSignalLong =
      [{ symbol := "RELIANCE.NS", orderType := "MKT",
         quantity := 10, direction := .BUY }] :=
  (on_signal_order_policy (Portfolio.init 100000) exSignalLong).1 rfl rfl

/-- C5. ExecutionHandler.execute_order emits one fill priced at the bar
close plus close * slippage_pct * u on BUY and minus that slippage on SELL,
with commission fill_price * quantity * commission_rate, the exact order
quantity, and the triggering bar timestamp, for any draw u in [0, 1). -/
theorem execute_order_fill_fields (commission_rate slippage_pct : ℚ)
    (o : OrderEvent) (bar : Bar) (u : ℚ) (h0 : 0 ≤ u) (h1 : u < 1) :
    (o.direction = .BUY →
      (execute_order commission_rate slippage_pct o bar u).fill_price
        = bar.close + bar.close * slippage_pct * u) ∧
    (o.direction = .SELL →
      (execute_order commission_rate slippage_pct o bar u).fill_price
        = bar.close - bar.close * slippage_pct * u) ∧
    (execute_order commission_rate slippage_pct o bar u).commission
      = (execute_order commission_rate slippage_pct o bar u).fill_price
          * o.quantity * commission_rate ∧
    (execute_order commission_rate slippage_pct o bar u).quantity = o.quantity ∧
    (execute_order commission_rate slippage_pct o bar u).timestamp = bar.timestamp := by
  refine ⟨fun hd => ?_, fun hd => ?_, ?_, ?_, ?_⟩ <;>
    simp [execute_order, sub_eq_add_neg] <;> simp [hd]

/-- Witness for C5: a BUY order against a concrete bar with draw 1/2. -/
theorem execute_order_fill_fields_witness :
    (execute_order (1/1000) (1/2000)
        { symbol := "RELIANCE.NS", orderType := "MKT", quantity := 10, direction := .BUY }
        { timestamp := 3, close := 100 } (1/2)).fill_price
      = 100 + 100 * (1/2000) * (1/2) :=
  (execute_order_fill_fields (1/1000) (1/2000)
    { symbol := "RELIANCE.NS", orderType := "MKT", quantity := 10, direction := .BUY }
    { timestamp := 3, close := 100 } (1/2) (by norm_num) (by norm_num)).1 rfl

/-- Helper: once the bought flag is set, every later call of the buy and
hold strategy emits nothing and the flag stays set. -/
theorem runStrategy_bought (symbol : String) :
    ∀ ts : List Nat, runStrategy symbol true ts = (true, []) := by
  intro ts
  induction ts with
  | nil => rfl
  | cons t ts ih => simp [runStrategy, calculate_signals, ih]

/-- C9. Over any nonempty feed of bars, the buy and hold strategy started
with a cleared bought flag emits exactly one signal in total, a LONG signal
for its symbol carrying the first bar timestamp, and finishes with the flag
set; every call after the first emits nothing. -/
theorem buy_and_hold_single_signal (symbol : String) (ts : List Nat)
    (h : ts ≠ []) :
    runStrategy symbol false ts =
      (true, [{ symbol := symbol, timestamp := ts.headI,
                signalType := .LONG, strength := 1 }]) := by
  cases ts with
  | nil => exact absurd rfl h
  | cons t rest =>
    simp [runStrategy, calculate_signals, runStrategy_bought]

/-- Witness for C9: three bars produce exactly the one LONG signal of the
first bar. -/
theorem buy_and_hold_single_signal_witness :
    runStrategy "RELIANCE.NS" false [5, 6, 7] =
      (true, [{ symbol := "RELIANCE.NS", timestamp := 5,
                signalType := .LONG, strength := 1 }]) :=
  buy_and_hold_single_signal "RELIANCE.NS" [5, 6, 7] (by simp)

/-- Fixture ledger for C1: a single SELL trade of 1 share at price 10 with
commission 1, executed at timestamp 0, against a feed whose row timestamps
start at 0. -/
def c1Ledger : List Trade :=
  [{ timestamp := 0, action := .SELL, quantity := 1, price := 10, commission := 1 }]

/-- C1, evaluation at the failing input. The equity-curve rebuild of
Statistics adds price * quantity + commission to cash on a SELL, because it
reuses the trade_cost expression of the BUY branch: a SELL of 1 share at 10
with commission 1 raises the carried-forward cash from 100000 to 100011,
whereas net proceeds per the specification (and per Portfolio.on_fill)
would give 100009. -/
theorem equity_curve_sell_adds_commission :
    equityCurveCash 100000 id c1Ledger 0 = 100000 + (10 * 1 + 1) ∧
    equityCurveCash 100000 id c1Ledger 0 ≠ 100000 + (10 * 1 - 1) := by
  constructor <;> norm_num [equityCurveCash, c1Ledger]

/-- Fixture ledger for C2: one closed losing round trip, bought at 100 and
sold at 90, ten shares, no commission. -/
def c2Ledger : List Trade :=
  [{ timestamp := 0, action := .BUY, quantity := 10, price := 100, commission := 0 },
   { timestamp := 1, action := .SELL, quantity := 10, price := 90, commission := 0 }]

/-- C2, evaluation at the failing input. generate_report initialises the
gross totals and the win and loss counters to zero and never folds the
ledger into them, so on a ledger with a closed losing trade the profit
factor is still the float inf (encoded none) instead of a finite quotient,
and percent profitable is 0 with no closed trade counted. -/
theorem report_trade_stats_constant :
    profitFactor c2Ledger = none ∧ pctProfitable c2Ledger = 0 := by
  constructor <;> simp [profitFactor, pctProfitable, grossLoss, winningTrades,
    losingTrades]

/-- Helper: a list of nonnegative rationals sums to zero iff every entry is
zero. -/
theorem sum_nonneg_eq_zero_iff (xs : List ℚ) (h : ∀ x ∈ xs, 0 ≤ x) :
    xs.sum = 0 ↔ ∀ x ∈ xs, x = 0 := by
  induction xs with
  | nil => simp
  | cons y ys ih =>
    have hy : 0 ≤ y := h y (by simp)
    have hys : ∀ x ∈ ys, 0 ≤ x := fun x hx => h x (by simp [hx])
    rw [List.sum_cons, add_eq_zero_iff_of_nonneg hy (List.sum_nonneg hys), ih hys]
    simp

/-- Helper: summing a list after subtracting a constant from each entry. -/
theorem sum_map_sub_const (xs : List ℚ) (d : ℚ) :
    (xs.map (fun x => x - d)).sum = xs.sum - xs.length * d := by
  induction xs with
  | nil => simp
  | cons y ys ih =>
    simp [ih]
    ring

/-- Helper: the mean of a nonempty constant list is its constant value. -/
theorem meanQ_const (xs : List ℚ) (c : ℚ) (hne : xs ≠ [])
    (h : ∀ x ∈ xs, x = c) : meanQ xs = c := by
  have hlen : (xs.length : ℚ) ≠ 0 := by
    exact_mod_cast (List.length_pos.mpr hne).ne'
  rw [meanQ, List.sum_eq_card_nsmul xs c h, nsmul_eq_mul,
    mul_div_cancel_left₀ c hlen]

/-- Helper: subtracting the per-period rate from every return leaves the
sample variance unchanged. -/
theorem svar_shift (xs : List ℚ) (d : ℚ) :
    svar? (xs.map (fun x => x - d)) = svar? xs := by
  rcases eq_or_ne xs [] with rfl | hne
  · rfl
  have hlen : (xs.length : ℚ) ≠ 0 := by
    exact_mod_cast (List.length_pos.mpr hne).ne'
  have hmean : meanQ (xs.map (fun x => x - d)) = meanQ xs - d := by
    rw [meanQ, List.length_map, sum_map_sub_const, sub_div, meanQ,
      mul_div_cancel_left₀ d hlen]
  rw [svar?, svar?, List.length_map, hmean]
  by_cases hle : xs.length ≤ 1
  · simp [hle]
  · rw [if_neg hle, if_neg hle, List.map_map]
    have hfun : ((fun x => (x - (meanQ xs - d)) ^ 2) ∘ fun x => x - d)
        = fun x => (x - meanQ xs) ^ 2 := by
      funext x
      simp only [Function.comp]
      ring
    rw [hfun]

/-- Helper: for a series of at least two points the sample variance is a
genuine rational, and it is zero exactly when every point equals the mean. -/
theorem svar_eq_zero_iff (xs : List ℚ) (h2 : 2 ≤ xs.length) :
    svar? xs = some 0 ↔ ∀ x ∈ xs, x = meanQ xs := by
  have hle : ¬ xs.length ≤ 1 := by omega
  have hden : ((xs.length : ℚ) - 1) ≠ 0 := by
    have h2q : (2 : ℚ) ≤ (xs.length : ℚ) := by exact_mod_cast h2
    linarith
  rw [svar?, if_neg hle]
  have hnn : ∀ y ∈ xs.map (fun x => (x - meanQ xs) ^ 2), 0 ≤ y := by
    intro y hy
    obtain ⟨x, _, rfl⟩ := List.mem_map.mp hy
    exact sq_nonneg _
  constructor
  · intro h0
    have hdiv := Option.some.inj h0
    have hsum : (xs.map (fun x => (x - meanQ xs) ^ 2)).sum = 0 := by
      rcases div_eq_zero_iff.mp hdiv with h | h
      · exact h
      · exact absurd h hden
    intro x hx
    have := (sum_nonneg_eq_zero_iff _ hnn).mp hsum _
      (List.mem_map_of_mem (fun x => (x - meanQ xs) ^ 2) hx)
    have hx0 : x - meanQ xs = 0 := by
      exact pow_eq_zero_iff (n := 2) (by norm_num) |>.mp this
    linarith
  · intro hall
    have hsum : (xs.map (fun x => (x - meanQ xs) ^ 2)).sum = 0 := by
      apply List.sum_eq_zero
      intro y hy
      obtain ⟨x, hx, rfl⟩ := List.mem_map.mp hy
      rw [hall x hx]
      ring
    rw [hsum, zero_div]

/-- Helper: a series of at least two points has a non-NaN sample variance. -/
theorem svar_isSome (xs : List ℚ) (h2 : 2 ≤ xs.length) :
    ∃ v, svar? xs = some v := by
  rw [svar?, if_neg (by omega)]
  exact ⟨_, rfl⟩

/-- C7, counterexample. A returns series of one point is a constant series,
yet both ratio computations produce the float NaN instead of 0: pandas
sample std of a single point is NaN, the guard std == 0 compares NaN with 0
and is false, and the subsequent division by the NaN std propagates NaN. -/
theorem singleton_returns_yield_nan :
    calculate_sharpe_ratio [-(1/10)] 0 = .nan ∧
    calculate_sortino_ratio [-(1/10)] 0 = .nan := by
  constructor
  · rfl
  · norm_num [calculate_sortino_ratio, downsideReturns, stdEqZero, svar?,
      List.filter]

/-- C7, amended. An empty returns series, and a constant series of at least
two points, give Sharpe 0 and Sortino 0 (the degenerate guards fire); a
series of at least two points that is not constant gives Sharpe
sqrt 252 * mean(excess) / std(excess), encoded as the formula constructor
applied to the mean of the excess returns and their sample variance; and
when additionally the downside subseries has at least two points and
nonzero variance, Sortino is sqrt 252 * (mean(returns) - rfr/252) /
std(downside), encoded likewise. A one-point series, although constant,
instead yields NaN, as the counterexample shows. -/
theorem sharpe_sortino_degenerate_and_formula (returns : List ℚ) (rfr : ℚ) :
    (returns = [] →
      calculate_sharpe_ratio returns rfr = .zero ∧
      calculate_sortino_ratio returns rfr = .zero) ∧
    (∀ c, 2 ≤ returns.length → (∀ x ∈ returns, x = c) →
      calculate_sharpe_ratio returns rfr = .zero ∧
      calculate_sortino_ratio returns rfr = .zero) ∧
    (2 ≤ returns.length → ¬(∀ x ∈ returns, x = meanQ returns) →
      ∃ v, v ≠ 0 ∧ svar? (excessReturns returns rfr) = some v ∧
        calculate_sharpe_ratio returns rfr =
          .formula (meanQ (excessReturns returns rfr)) v) ∧
    (2 ≤ (downsideReturns returns).length →
      ¬(∀ x ∈ downsideReturns returns, x = meanQ (downsideReturns returns)) →
      ∃ v, v ≠ 0 ∧ svar? (downsideReturns returns) = some v ∧
        calculate_sortino_ratio returns rfr =
          .formula (meanQ returns - rfr / 252) v) := by
  refine ⟨fun he => ?_, fun c h2 hall => ?_, fun h2 hnc => ?_, fun h2 hnc => ?_⟩
  · subst he
    exact ⟨rfl, rfl⟩
  · have hne : returns ≠ [] := by
      intro h
      rw [h] at h2
      simp at h2
    have hmean : meanQ returns = c := meanQ_const returns c hne hall
    have hsvar : svar? returns = some 0 :=
      (svar_eq_zero_iff returns h2).mpr (fun x hx => by rw [hall x hx, hmean])
    constructor
    · simp [calculate_sharpe_ratio, stdEqZero, hsvar]
    · by_cases hc : c < 0
      · have hds : downsideReturns returns = returns := by
          rw [downsideReturns, List.filter_eq_self]
          intro a ha
          simpa [hall a ha] using hc
        simp [calculate_sortino_ratio, hds, stdEqZero, hsvar]
      · have hds : downsideReturns returns = [] := by
          rw [downsideReturns, List.filter_eq_nil_iff]
          intro a ha
          simp [hall a ha, hc]
        simp [calculate_sortino_ratio, hds, List.isEmpty_eq_true, hne]
  · obtain ⟨v, hv⟩ := svar_isSome returns h2
    have hvne : v ≠ 0 := by
      intro h0
      subst h0
      exact hnc ((svar_eq_zero_iff returns h2).mp hv)
    have hex : svar? (excessReturns returns rfr) = some v := by
      rw [excessReturns, svar_shift, hv]
    have hne : returns ≠ [] := by
      intro h
      rw [h] at h2
      simp at h2
    refine ⟨v, hvne, hex, ?_⟩
    have hex' : svar? (List.map (fun r => r - rfr / 252) returns) = some v := hex
    simp [calculate_sharpe_ratio, List.isEmpty_eq_true, hne, stdEqZero, hv,
      hvne, excessReturns, hex']
  · obtain ⟨v, hv⟩ := svar_isSome (downsideReturns returns) h2
    have hvne : v ≠ 0 := by
      intro h0
      subst h0
      exact hnc ((svar_eq_zero_iff (downsideReturns returns) h2).mp hv)
    have hdsne : downsideReturns returns ≠ [] := by
      intro h
      rw [h] at h2
      simp at h2
    have hne : returns ≠ [] := by
      intro h
      rw [downsideReturns, h] at hdsne
      simp at hdsne
    refine ⟨v, hvne, hv, ?_⟩
    simp [calculate_sortino_ratio, List.isEmpty_eq_true, hne, hdsne,
      stdEqZero, hv, hvne]

/-- Witness for C7: a constant two-point returns series yields Sharpe 0 and
Sortino 0. -/
theorem sharpe_sortino_degenerate_and_formula_witness :
    calculate_sharpe_ratio [1/2, 1/2] 0 = .zero ∧
    calculate_sortino_ratio [1/2, 1/2] 0 = .zero :=
  (sharpe_sortino_degenerate_and_formula [1/2, 1/2] 0).2.1 (1/2)
    (by norm_num) (by norm_num)

/-- Helper: a left fold with min bounds the seed and every list entry from
below. -/
theorem foldl_min_le (ds : List ℚ) : ∀ d : ℚ,
    ds.foldl min d ≤ d ∧ ∀ x ∈ ds, ds.foldl min d ≤ x := by
  induction ds with
  | nil =>
    intro d
    exact ⟨le_refl d, by simp⟩
  | cons y ys ih =>
    intro d
    have h := ih (min d y)
    refine ⟨le_trans h.1 (min_le_left d y), ?_⟩
    intro x hx
    rcases List.mem_cons.mp hx with rfl | hx
    · exact le_trans h.1 (min_le_right d x)
    · exact h.2 x hx

/-- Helper: a left fold with min returns its seed or a list entry. -/
theorem foldl_min_mem (ds : List ℚ) : ∀ d : ℚ,
    ds.foldl min d = d ∨ ds.foldl min d ∈ ds := by
  induction ds with
  | nil =>
    intro d
    exact Or.inl rfl
  | cons y ys ih =>
    intro d
    rw [List.foldl_cons]
    rcases ih (min d y) with h | h
    · rw [h]
      rcases min_choice d y with hm | hm
      · exact Or.inl hm
      · rw [hm]
        exact Or.inr (List.mem_cons_self y ys)
    · exact Or.inr (List.mem_cons_of_mem y h)

/-- Helper: the series minimum bounds every entry from below. -/
theorem seriesMin_le (ds : List ℚ) : ∀ x ∈ ds, seriesMin ds ≤ x := by
  cases ds with
  | nil => simp
  | cons y ys =>
    intro x hx
    rcases List.mem_cons.mp hx with rfl | hx
    · exact (foldl_min_le ys x).1
    · exact (foldl_min_le ys y).2 x hx

/-- Helper: the series minimum of a nonempty series is one of its entries. -/
theorem seriesMin_mem (ds : List ℚ) (h : ds ≠ []) : seriesMin ds ∈ ds := by
  cases ds with
  | nil => exact absurd rfl h
  | cons y ys =>
    rcases foldl_min_mem ys y with h1 | h1
    · rw [show seriesMin (y :: ys) = ys.foldl min y from rfl, h1]
      exact List.mem_cons_self y ys
    · exact List.mem_cons_of_mem y h1

/-- Helper: the first index whose entry equals a value present in the list
is in range and reads back that value. -/
theorem getD_findIdx_eq (xs : List ℚ) (m : ℚ) (h : m ∈ xs) :
    xs.getD (xs.findIdx (fun x => x = m)) 0 = m ∧
    xs.findIdx (fun x => x = m) < xs.length := by
  induction xs with
  | nil => simp at h
  | cons y ys ih =>
    by_cases hy : y = m
    · subst hy
      simp [List.findIdx_cons]
    · have hm : m ∈ ys := by
        rcases List.mem_cons.mp h with h1 | h1
        · exact absurd h1.symm hy
        · exact h1
      obtain ⟨ih1, ih2⟩ := ih hm
      have hdec : (decide (y = m)) = false := decide_eq_false hy
      rw [List.findIdx_cons]
      simp only [hdec, cond_false]
      refine ⟨?_, ?_⟩
      · rw [List.getD_cons_succ]
        exact ih1
      · simp only [List.length_cons]
        exact Nat.succ_lt_succ ih2

/-- Helper: the running maximum has the length of its input. -/
theorem cummaxFrom_length (m : ℚ) (xs : List ℚ) :
    (cummaxFrom m xs).length = xs.length := by
  induction xs generalizing m with
  | nil => rfl
  | cons y ys ih => simp [cummaxFrom, ih]

/-- Helper: cummax preserves length. -/
theorem cummax_length (xs : List ℚ) : (cummax xs).length = xs.length := by
  cases xs with
  | nil => rfl
  | cons y ys => simp [cummax, cummaxFrom_length]

/-- Helper: the drawdown series has the length of the equity series. -/
theorem drawdown_length (xs : List ℚ) : (drawdown xs).length = xs.length := by
  simp [drawdown, cummax_length]

/-- C8. calculate_max_drawdown returns the minimum of the drawdown series
total_equity minus running max, together with that minimum divided by the
running max at the first minimising position (0 when that running max is
zero); on the scenario series 100000, 100050, 99000, 101000 it returns
the value -1050 and the percentage -1050 / 100050. -/
theorem max_drawdown_minimum_and_pct (equity : List ℚ) (h : equity ≠ []) :
    (∀ x ∈ drawdown equity, (calculate_max_drawdown equity).1 ≤ x) ∧
    (∃ i, i < (drawdown equity).length ∧
      (drawdown equity).getD i 0 = (calculate_max_drawdown equity).1 ∧
      (calculate_max_drawdown equity).2 =
        (if (cummax equity).getD i 0 = 0 then 0
         else (calculate_max_drawdown equity).1 / (cummax equity).getD i 0)) ∧
    calculate_max_drawdown [100000, 100050, 99000, 101000] =
      (-1050, -1050 / 100050) := by
  have hfst : (calculate_max_drawdown equity).1 = seriesMin (drawdown equity) := rfl
  have hdd : drawdown equity ≠ [] := by
    intro hnil
    have := drawdown_length equity
    rw [hnil] at this
    exact h (List.length_eq_zero.mp this.symm)
  refine ⟨?_, ?_, ?_⟩
  · intro x hx
    rw [hfst]
    exact seriesMin_le (drawdown equity) x hx
  · obtain ⟨hget, hlt⟩ :=
      getD_findIdx_eq (drawdown equity) (seriesMin (drawdown equity))
        (seriesMin_mem (drawdown equity) hdd)
    exact ⟨idxmin (drawdown equity), hlt, by rw [hfst]; exact hget, rfl⟩
  · norm_num [calculate_max_drawdown, drawdown, cummax, cummaxFrom, seriesMin,
      idxmin, List.findIdx_cons, max_def, min_def]

/-- Witness for C8: the drawdown scenario of the specification evaluated in
full. -/
theorem max_drawdown_minimum_and_pct_witness :
    calculate_max_drawdown [100000, 100050, 99000, 101000] =
      (-1050, -1050 / 100050) :=
  (max_drawdown_minimum_and_pct [100000, 100050, 99000, 101000] (by simp)).2.2

/-- Invariant for C10: every symbol present in the positions dict is bound
to a strictly positive quantity. -/
def positionsPositive (p : Portfolio) : Prop :=
  ∀ s q, p.positions s = some q → 0 < q

/-- Helper: on_fill preserves strict positivity of positions when the fill
quantity is positive: BUY adds a positive quantity to a nonnegative stock,
SELL removes the entry outright. -/
theorem on_fill_preserves_positive (p : Portfolio) (f : FillEvent)
    (hf : 0 < f.quantity) (hp : positionsPositive p) :
    positionsPositive (p.on_fill f) := by
  intro s q hq
  cases hd : f.direction with
  | BUY =>
    simp only [Portfolio.on_fill, hd] at hq
    by_cases hs : s = f.symbol
    · rw [if_pos hs] at hq
      have hq' := Option.some.inj hq
      cases hold : p.positions f.symbol with
      | none =>
        rw [hold] at hq'
        simp only [Option.getD_none, zero_add] at hq'
        rw [← hq']
        exact hf
      | some q0 =>
        rw [hold] at hq'
        simp only [Option.getD_some] at hq'
        have h0 := hp f.symbol q0 hold
        rw [← hq']
        linarith
    · rw [if_neg hs] at hq
      exact hp s q hq
  | SELL =>
    simp only [Portfolio.on_fill, hd] at hq
    by_cases hs : s = f.symbol
    · rw [if_pos hs] at hq
      exact absurd hq (by simp)
    · rw [if_neg hs] at hq
      exact hp s q hq

/-- Helper: signals contribute no fill to an action sequence. -/
theorem actionFills_cons_sig (s : SignalEvent) (rest : List PAction) :
    actionFills (PAction.sig s :: rest) = actionFills rest := rfl

/-- Helper: a fill action contributes its fill to the action sequence. -/
theorem actionFills_cons_fil (f : FillEvent) (rest : List PAction) :
    actionFills (PAction.fil f :: rest) = f :: actionFills rest := rfl

/-- Helper: applying any action sequence whose fills all carry positive
quantity preserves the positivity invariant. -/
theorem applyActions_preserves_positive :
    ∀ (acts : List PAction) (p : Portfolio),
      (∀ f ∈ actionFills acts, 0 < f.quantity) → positionsPositive p →
      positionsPositive (applyActions p acts) := by
  intro acts
  induction acts with
  | nil =>
    intro p _ hp
    exact hp
  | cons a rest ih =>
    intro p hq hp
    cases a with
    | sig s =>
      have hq' : ∀ f ∈ actionFills rest, 0 < f.quantity := by
        intro f hf
        exact hq f (by rw [actionFills_cons_sig]; exact hf)
      exact ih p hq' hp
    | fil f =>
      have hqf : 0 < f.quantity := by
        refine hq f ?_
        rw [actionFills_cons_fil]
        exact List.mem_cons_self f (actionFills rest)
      have hq' : ∀ g ∈ actionFills rest, 0 < g.quantity := by
        intro g hg
        refine hq g ?_
        rw [actionFills_cons_fil]
        exact List.mem_cons_of_mem f hg
      exact ih (p.on_fill f) hq' (on_fill_preserves_positive p f hqf hp)

/-- C10. In every portfolio state reachable from the initial state by a
sequence of on_signal and on_fill calls whose fills all carry positive
quantity, every symbol present in the positions dict holds a strictly
positive share count: flatness is represented by absence of the key, never
by a zero or negative entry, so the membership test of on_signal coincides
with an open position. -/
theorem reachable_positions_strictly_positive (initial_capital : ℚ)
    (acts : List PAction)
    (hq : ∀ f ∈ actionFills acts, 0 < f.quantity) :
    ∀ s q, (applyActions (Portfolio.init initial_capital) acts).positions s
      = some q → 0 < q := by
  have hinit : positionsPositive (Portfolio.init initial_capital) := by
    intro s q hq'
    simp [Portfolio.init] at hq'
  exact applyActions_preserves_positive acts (Portfolio.init initial_capital)
    hq hinit

/-- Witness for C10: after a LONG signal and a BUY fill of ten shares the
recorded position is ten, which is positive. -/
theorem reachable_positions_strictly_positive_witness : (0 : ℚ) < 10 :=
  reachable_positions_strictly_positive 100000
    [PAction.sig exSignalLong, PAction.fil exFillBuy]
    (by simp [actionFills, exFillBuy]) "RELIANCE.NS" 10
    (by simp [applyActions, Portfolio.on_fill, Portfolio.init, exFillBuy,
      exSignalLong])

/-- Helper: signal events carry no fill. -/
theorem fillsOf_map_signal (ss : List SignalEvent) :
    fillsOf (ss.map Event.signal) = [] := by
  induction ss with
  | nil => rfl
  | cons s ss ih => simpa [fillsOf, List.filterMap_cons] using ih

/-- Helper: order events carry no fill. -/
theorem fillsOf_map_order (os : List OrderEvent) :
    fillsOf (os.map Event.order) = [] := by
  induction os with
  | nil => rfl
  | cons o os ih => simpa [fillsOf, List.filterMap_cons] using ih

/-- Helper: on_signal emits at most one order. -/
theorem on_signal_length_le (p : Portfolio) (s : SignalEvent) :
    (p.on_signal s).length ≤ 1 := by
  rw [Portfolio.on_signal]
  split
  · simp
  · split
    · simp
    · simp

/-- Helper: a queue of orders weighs twice its length. -/
theorem orderWeight_sum (l : List OrderEvent) :
    ((l.map Event.order).map eventWeight).sum = 2 * l.length := by
  induction l with
  | nil => rfl
  | cons o l ih =>
    simp only [List.map_cons, List.sum_cons, ih, eventWeight, List.length_cons]
    ring

/-- Helper: handling one event pushes events of strictly smaller total
weight than the weight of the handled event, so each MarketEvent cascade is
finite: MARKET pushes at most one SIGNAL, SIGNAL at most one ORDER, ORDER
exactly one FILL, FILL nothing. -/
theorem stepEvent_weight_lt (cfg : Config) (us : Nat → ℚ) (bar : Bar)
    (eng : Engine) (e : Event) :
    ((stepEvent cfg us bar eng e).2.map eventWeight).sum < eventWeight e := by
  cases e with
  | market =>
    cases hb : eng.bought <;>
      norm_num [stepEvent, calculate_signals, hb, eventWeight]
  | signal s =>
    have hlen := on_signal_length_le eng.port s
    have hsum := orderWeight_sum (eng.port.on_signal s)
    simp only [stepEvent]
    rw [hsum]
    simp only [eventWeight]
    omega
  | order o => norm_num [stepEvent, eventWeight]
  | fill f => norm_num [stepEvent, eventWeight]

/-- Helper: with fuel at least the total queue weight, the inner while loop
drains the queue to emptiness and returns. -/
theorem drainQueue_total (cfg : Config) (us : Nat → ℚ) (bar : Bar) :
    ∀ (fuel : Nat) (eng : Engine) (q : List Event),
      (q.map eventWeight).sum ≤ fuel →
      ∃ r, drainQueue cfg us bar fuel eng q = some r := by
  intro fuel
  induction fuel with
  | zero =>
    intro eng q hq
    cases q with
    | nil => exact ⟨(eng, []), rfl⟩
    | cons e rest =>
      exfalso
      have h1 : 1 ≤ eventWeight e := by cases e <;> simp [eventWeight]
      simp only [List.map_cons, List.sum_cons] at hq
      omega
  | succ n ih =>
    intro eng q hq
    cases q with
    | nil => exact ⟨(eng, []), rfl⟩
    | cons e rest =>
      have hw := stepEvent_weight_lt cfg us bar eng e
      have hsum :
          (((rest ++ (stepEvent cfg us bar eng e).2)).map eventWeight).sum ≤ n := by
        rw [List.map_append, List.sum_append]
        simp only [List.map_cons, List.sum_cons] at hq
        omega
      obtain ⟨⟨rEng, rFs⟩, hr⟩ :=
        ih (stepEvent cfg us bar eng e).1 (rest ++ (stepEvent cfg us bar eng e).2) hsum
      refine ⟨(rEng, fillsOf (stepEvent cfg us bar eng e).2 ++ rFs), ?_⟩
      simp only [drainQueue]
      rw [hr]

/-- Helper: every fill pushed while handling one event against the current
bar is priced from that bar: only ORDER handling pushes a fill, and it is
built by execute_order from the bar close and the next random draw. -/
theorem stepEvent_fills_priced (cfg : Config) (us : Nat → ℚ) (bar : Bar)
    (eng : Engine) (e : Event) :
    ∀ f ∈ fillsOf (stepEvent cfg us bar eng e).2, pricedFromBar cfg us bar f := by
  cases e with
  | market =>
    intro f hf
    exact absurd hf (by simp [stepEvent, fillsOf_map_signal])
  | signal s =>
    intro f hf
    exact absurd hf (by simp [stepEvent, fillsOf_map_order])
  | order o =>
    intro f hf
    have hfe : f = execute_order cfg.commission_rate cfg.slippage_pct o bar
        (us eng.rng) := by
      simpa [stepEvent, fillsOf, List.filterMap] using hf
    subst hfe
    refine ⟨rfl, eng.rng, ?_⟩
    cases hd : o.direction with
    | BUY =>
      exact Or.inl (by simp [execute_order, hd])
    | SELL =>
      exact Or.inr (by simp [execute_order, hd, sub_eq_add_neg])
  | fill g =>
    intro f hf
    exact absurd hf (by simp [stepEvent, fillsOf])

/-- Helper: every fill recorded by a completed drain of the queue against
one bar is priced from that bar. -/
theorem drainQueue_fills_priced (cfg : Config) (us : Nat → ℚ) (bar : Bar) :
    ∀ (fuel : Nat) (eng : Engine) (q : List Event) (engF : Engine)
      (fs : List FillEvent),
      drainQueue cfg us bar fuel eng q = some (engF, fs) →
      ∀ f ∈ fs, pricedFromBar cfg us bar f := by
  intro fuel
  induction fuel with
  | zero =>
    intro eng q engF fs h f hf
    cases q with
    | nil =>
      simp only [drainQueue, Option.some.injEq, Prod.mk.injEq] at h
      rw [← h.2] at hf
      simp at hf
    | cons e rest => simp [drainQueue] at h
  | succ n ih =>
    intro eng q engF fs h f hf
    cases q with
    | nil =>
      simp only [drainQueue, Option.some.injEq, Prod.mk.injEq] at h
      rw [← h.2] at hf
      simp at hf
    | cons e rest =>
      rcases hrec : drainQueue cfg us bar n (stepEvent cfg us bar eng e).1
          (rest ++ (stepEvent cfg us bar eng e).2) with _ | ⟨rEng, rFs⟩
      · rw [drainQueue] at h
        simp only [hrec] at h
        exact absurd h (by simp)
      · rw [drainQueue] at h
        simp only [hrec, Option.some.injEq, Prod.mk.injEq] at h
        rw [← h.2] at hf
        rcases List.mem_append.mp hf with hf1 | hf2
        · exact stepEvent_fills_priced cfg us bar eng e f hf1
        · exact ih _ _ _ _ hrec f hf2

/-- C6. The driver processes every event transitively caused by a bar
MarketEvent, first-in first-out, to queue exhaustion before pulling the
next bar: for every configuration, random stream, bar feed and starting
state the run returns (each per-bar drain terminates with the queue empty
within the static weight bound, and the loop halts with the queue drained
once the feed ends), and every fill produced during the run belongs to the
cascade of a feed bar, carries that bar timestamp, and has a fill price
built from that bar close and the slippage formula, never from a later
bar. -/
theorem driver_cascade_pricing (cfg : Config) (us : Nat → ℚ)
    (bars : List Bar) (eng : Engine) :
    ∃ res, runBacktest cfg us bars eng = some res ∧
      ∀ bf ∈ res.2, bf.1 ∈ bars ∧ pricedFromBar cfg us bf.1 bf.2 := by
  induction bars generalizing eng with
  | nil => exact ⟨(eng, []), rfl, by simp⟩
  | cons b rest ih =>
    obtain ⟨⟨dEng, dFs⟩, hd⟩ :=
      drainQueue_total cfg us b (eventWeight Event.market) eng [Event.market]
        (by norm_num [eventWeight])
    obtain ⟨⟨rEng, rFs⟩, hr, hprice⟩ := ih dEng
    refine ⟨(rEng, dFs.map (fun f => (b, f)) ++ rFs), ?_, ?_⟩
    · rw [runBacktest]
      simp only [hd, hr]
    · intro bf hbf
      rcases List.mem_append.mp hbf with h1 | h2
      · obtain ⟨f, hf, rfl⟩ := List.mem_map.mp h1
        exact ⟨List.mem_cons_self b rest,
          drainQueue_fills_priced cfg us b _ _ _ _ _ hd f hf⟩
      · obtain ⟨hmem, hp⟩ := hprice bf h2
        exact ⟨List.mem_cons_of_mem b hmem, hp⟩
